import Mathlib

/-!
Verification development for the build-graph anonymizer in
`src/obfuscator/peek_reader.py`.

The Python source is shallowly embedded: strings are Lean `String`s
(lists of characters), the mutable `RenameMap` dictionary becomes an
explicitly threaded state value, the pseudo-random name generator
becomes an explicit stream `Nat → String` consumed by a counter, and
fallible code (Python exceptions) returns `Option`.  Python's
`str.split("/")`, `str.removesuffix(".py")`, `"/".join`, `Counter`
and the `Address.capture_pattern` regex are each translated into
executable Lean functions below, keeping the source's behaviour on
every input (including corner cases such as `"".split("/") == [""]`).
-/

/-- Characters excluded by the `[^:#]` character class of
`Address.capture_pattern`. -/
def nonSpecial (c : Char) : Bool := !(c == ':' || c == '#')

/-- `True` for characters other than `'/'`; used to model
`str.rsplit("/", 1)`. -/
def notSlash (c : Char) : Bool := !(c == '/')

/-- Python `s.rsplit("/", 1)[-1]` from `last_path_part`: the part of the
string after the final slash (the whole string when no slash occurs). -/
def last_path_part (s : String) : String :=
  String.mk ((s.data.reverse.takeWhile notSlash).reverse)

/-- Python `str.split("/")` on the character list: splits at every `'/'`,
keeping empty pieces, and yields `[[]]` for the empty string (Python's
`"".split("/") == [""]`). -/
def splitSlash : List Char → List (List Char)
  | [] => [[]]
  | c :: rest =>
    match splitSlash rest with
    | [] => [[c]]
    | h :: t => if c == '/' then [] :: h :: t else (c :: h) :: t

/-- `str.split("/")` on strings. -/
def splitSlashS (s : String) : List String := (splitSlash s.data).map String.mk

/-- Python `"/".join`. -/
def joinSlash : List String → String
  | [] => ""
  | [x] => x
  | x :: y :: t => x ++ "/" ++ joinSlash (y :: t)

/-- Python `".".join`. -/
def joinDot : List String → String
  | [] => ""
  | [x] => x
  | x :: y :: t => x ++ "." ++ joinDot (y :: t)

/-- Python `"\n".join`. -/
def joinNL : List String → String
  | [] => ""
  | [x] => x
  | x :: y :: t => x ++ "\n" ++ joinNL (y :: t)

/-- Python `s.removesuffix(".py")`: drops a trailing `".py"` when present,
otherwise returns the string unchanged. -/
def removesuffixPy (s : String) : String :=
  if s.data.reverse.take 3 = ['y', 'p', '.'] then
    String.mk (s.data.take (s.data.length - 3))
  else s

/-- Decimal rendering of a natural number, as Python's `f"{n}"` produces
(no sign, no leading zeros, `"0"` for zero): little-endian digit list,
fuelled structural recursion. -/
def natDigitsLE : Nat → Nat → List Nat
  | 0, _ => []
  | fuel + 1, n => if n = 0 then [] else (n % 10) :: natDigitsLE fuel (n / 10)

/-- Decimal string of a natural number (Python `str(n)` / f-string). -/
def natRepr (n : Nat) : String :=
  if n = 0 then "0" else String.mk (((natDigitsLE n n).map Nat.digitChar).reverse)

/-- First-match lookup in an association list; models `key in dict` /
`dict[key]` for the insertion-ordered Python dict inside `RenameMap`. -/
def lookupKV : List (String × String) → String → Option String
  | [], _ => none
  | (k', v) :: rest, k => if k' = k then some v else lookupKV rest k

/-- The `RenameMap` dataclass.  The Python object holds a name generator
(`namesgenerator.get_random_name`) and a mutable memo dictionary; here the
generator is an arbitrary stream `gen` indexed by how many names have been
drawn so far (`count`), and the dictionary is an insertion-ordered
association list, threaded explicitly. -/
structure RenameMap where
  gen : Nat → String
  count : Nat
  map : List (String × String)

/-- `RenameMap.assign_name`: return the memoized pseudonym for `key`,
drawing and storing a fresh one on first sight. -/
def RenameMap.assign_name (rm : RenameMap) (key : String) : String × RenameMap :=
  match lookupKV rm.map key with
  | some v => (v, rm)
  | none =>
    let v := rm.gen rm.count
    (v, ⟨rm.gen, rm.count + 1, rm.map ++ [(key, v)]⟩)

/-- `RenameMap.assign_many`: `tuple(map(self.assign_name, keys))`, i.e.
`assign_name` applied to each key in order, threading the memo state. -/
def RenameMap.assign_many (rm : RenameMap) : List String → List String × RenameMap
  | [] => ([], rm)
  | k :: ks =>
    let p := rm.assign_name k
    let q := p.2.assign_many ks
    (p.1 :: q.1, q.2)

/-- `rename_python_module(path, rename_map)`: strip the `.py` suffix,
split on `/`, rename every component through the map except a reserved
`__init__`/`__main__` leaf, rejoin and reattach `.py`.  The Python
`path_parts[-1]` would raise `IndexError` on an empty list, modelled by
`none`; `split` never returns an empty list, so this never happens. -/
def rename_python_module (path : String) (rm : RenameMap) :
    Option (String × RenameMap) :=
  let path_parts := splitSlashS (removesuffixPy path)
  match path_parts.getLast? with
  | none => none
  | some lastp =>
    if lastp = "__init__" ∨ lastp = "__main__" then
      let p := rm.assign_many path_parts.dropLast
      some (joinSlash (p.1 ++ [lastp]) ++ ".py", p.2)
    else
      let p := rm.assign_many path_parts
      some (joinSlash p.1 ++ ".py", p.2)

/-- The `path[:name][#subtarget]` coordinate (the `Address` dataclass). -/
structure Address where
  path : String
  name : String
  subtarget : String
deriving DecidableEq

/-- The name/subtarget part of `Address.capture_pattern` after the path
has been consumed: `(?::(?P<name>[^:#]+))?` behaves as "if a `':'` is
followed by a nonempty run of non-special characters, consume colon and
run"; otherwise the group is unmatched and the position is unchanged. -/
def nameSub (r1 : List Char) : List Char × List Char :=
  match r1 with
  | c :: r =>
    if c = ':' ∧ r.takeWhile nonSpecial ≠ [] then
      (r.takeWhile nonSpecial, r.dropWhile nonSpecial)
    else ([], c :: r)
  | [] => ([], [])

/-- `(?:\#(?P<subtarget>[^:#]+))?`: consume `'#'` plus a nonempty run of
non-special characters if possible (an empty run leaves the group
unmatched, which also yields an empty subtarget). -/
def subPart (r2 : List Char) : List Char :=
  match r2 with
  | c :: r => if c = '#' then r.takeWhile nonSpecial else []
  | [] => []

/-- The mandatory part of `Address.capture_pattern` (everything after the
optional `(?://)?`): greedy `(?P<path>[^:#]+)` then the two optional
groups.  `re.match` only anchors at the start, so trailing unconsumed
characters are ignored. -/
def coreMatch (cs : List Char) :
    Option (List Char × List Char × List Char) :=
  if cs.takeWhile nonSpecial = [] then none
  else
    some (cs.takeWhile nonSpecial,
      (nameSub (cs.dropWhile nonSpecial)).1,
      subPart (nameSub (cs.dropWhile nonSpecial)).2)

/-- Full `Address.capture_pattern.match`: the leading `(?://)?` consumes
a `"//"` prefix exactly when the path group can still match afterwards;
otherwise the regex engine backtracks and the slashes are matched by the
path group itself (slashes are not special characters). -/
def addressMatch (cs : List Char) :
    Option (List Char × List Char × List Char) :=
  if cs.take 2 = ['/', '/'] ∧ (cs.drop 2).takeWhile nonSpecial ≠ [] then
    coreMatch (cs.drop 2)
  else coreMatch cs

/-- `Address.from_str` on the underlying character list: run the regex,
then drop the parsed name when it is empty or equals the path's last
slash-delimited component. -/
def fromData (cs : List Char) : Option Address :=
  match addressMatch cs with
  | none => none
  | some (p, n, t) =>
    let path := String.mk p
    let name0 := String.mk n
    let name := if name0 = "" ∨ name0 = last_path_part path then "" else name0
    some ⟨path, name, String.mk t⟩

/-- `Address.from_str`: `None` from the regex is the `ValueError`. -/
def Address.from_str (s : String) : Option Address := fromData s.data

/-- `Address.__str__`: path (or the `"//"` root marker when empty), an
explicit name segment (the stored name, else the path's last component),
and `#subtarget` when nonempty. -/
def Address.str (a : Address) : String :=
  (if a.path = "" then "//" else a.path) ++ ":" ++
    (if a.name = "" then last_path_part a.path else a.name) ++
    (if a.subtarget = "" then "" else "#" ++ a.subtarget)

/-- `collections.Counter` state inside `render_imports`: multiset of leaf
names seen so far, as an association list to counts. -/
def counterVal : List (String × Nat) → String → Nat
  | [], _ => 0
  | (k', n) :: rest, k => if k' = k then n else counterVal rest k

/-- `seen_imports.update([import_])`: bump the count for one key. -/
def counterInc : List (String × Nat) → String → List (String × Nat)
  | [], k => [(k, 1)]
  | (k', n) :: rest, k =>
    if k' = k then (k', n + 1) :: rest else (k', n) :: counterInc rest k

/-- The loop body of `render_imports`, with the `seen_imports` counter as
an explicit argument.  Each dependency is split like a module path; a
`__init__` leaf contributes no line; otherwise the counter for the leaf is
bumped and an aliased import line is produced.  The `raise
ValueError("zero-length dependency address")` branch is `none`. -/
def render_imports_go : List String → List (String × Nat) → Option (List String)
  | [], _ => some []
  | dep :: deps, cnt =>
    match splitSlashS (removesuffixPy dep) with
    | [] => none
    | parts@(_ :: _) =>
      let import_ := parts.getLastD ""
      let froms := parts.dropLast
      if import_ = "__init__" then render_imports_go deps cnt
      else
        let cnt' := counterInc cnt import_
        let aliasName := import_ ++ natRepr (counterVal cnt' import_)
        let from_ := joinDot froms
        let line :=
          if from_ ≠ "" then
            "from " ++ from_ ++ " import " ++ import_ ++ " as " ++ aliasName
          else
            "import " ++ import_ ++ " as " ++ aliasName
        (render_imports_go deps cnt').map (line :: ·)

/-- `render_imports(deps)` consumed into a list (the generator is fully
drained by the `"\n".join` at its only call site), starting from an empty
`Counter()`. -/
def render_imports (deps : List String) : Option (List String) :=
  render_imports_go deps []

/-- The `TargetInfo` dataclass.  `other` is the opaque bag of remaining
record fields, modelled as an ordered association list that the renaming
logic never inspects. -/
structure TargetInfo where
  address : Address
  target_type : String
  dependencies : List String
  dependencies_raw : List String
  other : List (String × String)
deriving DecidableEq

/-- The `TargetWithContent` dataclass: a `TargetInfo` plus the
synthesized `content`. -/
structure TargetWithContent extends TargetInfo where
  content : String
deriving DecidableEq

/-- First-occurrence deduplication, modelling the passage of
`info.dependencies` through Python's `set` constructor (one element per
distinct string; the embedding fixes first-occurrence order for the
set's arbitrary iteration order). -/
def pyDedup : List String → List String
  | [] => []
  | x :: xs => x :: (pyDedup xs).filter (fun y => !(y == x))

/-- `set(info.dependencies).difference(info.dependencies_raw)`: the
dependency edges kept for synthesis. -/
def inferredDeps (info : TargetInfo) : List String :=
  (pyDedup info.dependencies).filter (fun d => !(decide (d ∈ info.dependencies_raw)))

/-- The list comprehension `[rename_python_module(x, rename_map) for x in
inferred_deps]`: each edge renamed in turn through the shared map. -/
def renameDeps : List String → RenameMap → Option (List String × RenameMap)
  | [], rm => some ([], rm)
  | d :: ds, rm =>
    match rename_python_module d rm with
    | none => none
    | some (r, rm') =>
      match renameDeps ds rm' with
      | none => none
      | some (rs, rm'') => some (r :: rs, rm'')

/-- `handle_python_module(info, target_type, rename_map)`: rename the
target's own path, keep and rename the inferred dependency edges, render
the synthetic import lines, and assemble the output record (the unused
`target_type` parameter of the Python handler is kept for fidelity). -/
def handle_python_module (info : TargetInfo) (_target_type : String)
    (rm : RenameMap) : Option (TargetWithContent × RenameMap) :=
  match rename_python_module info.address.path rm with
  | none => none
  | some (new_path, rm₁) =>
    match renameDeps (inferredDeps info) rm₁ with
    | none => none
    | some (renamed_deps, rm₂) =>
      match render_imports renamed_deps with
      | none => none
      | some lines =>
        some ({ address := { info.address with path := new_path },
                target_type := info.target_type,
                dependencies := renamed_deps,
                dependencies_raw := [],
                other := info.other,
                content := joinNL (lines ++ [""]) }, rm₂)

/-- Membership in `type_to_handler`: the two recognized module kinds. -/
def relevantType (t : String) : Bool := t == "python_source" || t == "python_test"

/-- The body of the list comprehension in `rename_python_targets`: handle
each record in order, threading the one shared `RenameMap`. -/
def runHandlers : List TargetInfo → RenameMap →
    Option (List TargetWithContent × RenameMap)
  | [], rm => some ([], rm)
  | ti :: tis, rm =>
    match handle_python_module ti ti.target_type rm with
    | none => none
    | some (twc, rm') =>
      match runHandlers tis rm' with
      | none => none
      | some (twcs, rm'') => some (twc :: twcs, rm'')

/-- `rename_python_targets(peek_data)`: filter to the recognized target
types, construct one fresh `RenameMap` (its generator `gen` is the
external name source), and handle every eligible record in input order
with that single shared map. -/
def rename_python_targets (gen : Nat → String) (peek_data : List TargetInfo) :
    Option (List TargetWithContent) :=
  (runHandlers (peek_data.filter (fun ti => relevantType ti.target_type))
    ⟨gen, 0, []⟩).map Prod.fst

/-- Placeholder record used only as the default of `List.getD` in
statements about indexed access (never reachable when the index is in
bounds). -/
def dTI : TargetInfo := ⟨⟨"", "", ""⟩, "", [], [], []⟩

/-- Placeholder output record for `List.getD` defaults. -/
def dTWC : TargetWithContent := ⟨dTI, ""⟩

/-- Leaf module name of a dependency edge, as `render_imports` computes
it: last component of the suffix-stripped, slash-split edge. -/
def depLeaf (dep : String) : String :=
  (splitSlashS (removesuffixPy dep)).getLastD ""

/-- The leaf names of the edges that contribute an import line (every
edge except those with a reserved `__init__` leaf), in processing
order. -/
def keptLeaves (deps : List String) : List String :=
  (deps.map depLeaf).filter (fun l => !(l == "__init__"))

/-- An `Address` value whose serialization is a canonical address string
in the sense of the spec's data model: a nonempty relative `path` (no
leading or trailing slash, no `:`/`#` characters) and `name`/`subtarget`
tokens free of `:`/`#`. -/
def Address.canonicalOk (a : Address) : Prop :=
  a.path ≠ "" ∧
  (∀ c ∈ a.path.data, nonSpecial c = true) ∧
  a.path.data.head? ≠ some '/' ∧
  a.path.data.getLast? ≠ some '/' ∧
  (∀ c ∈ a.name.data, nonSpecial c = true) ∧
  (∀ c ∈ a.subtarget.data, nonSpecial c = true)

theorem splitSlash_ne_nil (cs : List Char) : splitSlash cs ≠ [] := by
  cases cs with
  | nil => simp [splitSlash]
  | cons c rest =>
    simp only [splitSlash]
    split
    · simp
    · split <;> simp

theorem splitSlashS_ne_nil (s : String) : splitSlashS s ≠ [] := by
  simp only [splitSlashS, ne_eq, List.map_eq_nil_iff]
  exact splitSlash_ne_nil s.data

/-- A run of `p`-true elements followed by a list whose head (if any)
falsifies `p` is exactly how `takeWhile`/`dropWhile` cut the list. -/
theorem takeWhile_run {α : Type} {p : α → Bool} :
    ∀ (l₁ l₂ : List α), (∀ c ∈ l₁, p c = true) →
      (∀ c, l₂.head? = some c → p c = false) →
      (l₁ ++ l₂).takeWhile p = l₁ ∧ (l₁ ++ l₂).dropWhile p = l₂ := by
  intro l₁
  induction l₁ with
  | nil =>
    intro l₂ _ h₂
    cases l₂ with
    | nil => simp [List.takeWhile, List.dropWhile]
    | cons c t =>
      have hc : p c = false := h₂ c rfl
      simp [List.takeWhile, List.dropWhile, hc]
  | cons c l₁ ih =>
    intro l₂ h₁ h₂
    have hc : p c = true := h₁ c (by simp)
    have ih' := ih l₂ (fun x hx => h₁ x (by simp [hx])) h₂
    simp [List.takeWhile, List.dropWhile, hc, ih'.1, ih'.2]

theorem takeWhile_all {α : Type} {p : α → Bool} (l : List α)
    (h : ∀ c ∈ l, p c = true) :
    l.takeWhile p = l ∧ l.dropWhile p = [] := by
  have := takeWhile_run l [] h (by intro c hc; simp at hc)
  simpa using this

theorem natDigitsLE_lt10 : ∀ (fuel n : Nat), ∀ d ∈ natDigitsLE fuel n, d < 10 := by
  intro fuel
  induction fuel with
  | zero => intro n d hd; simp [natDigitsLE] at hd
  | succ fuel ih =>
    intro n d hd
    simp only [natDigitsLE] at hd
    split at hd
    · simp at hd
    · rcases List.mem_cons.mp hd with h | h
      · exact h ▸ Nat.mod_lt _ (by norm_num)
      · exact ih _ d h

theorem natDigitsLE_val : ∀ (fuel n : Nat), n ≤ fuel →
    (natDigitsLE fuel n).foldr (fun d acc => d + 10 * acc) 0 = n := by
  intro fuel
  induction fuel with
  | zero => intro n hn; interval_cases n; simp [natDigitsLE]
  | succ fuel ih =>
    intro n hn
    simp only [natDigitsLE]
    split
    · simpa using (by omega : 0 = n)
    · rename_i hne
      have hdiv : n / 10 ≤ fuel := by
        have : n / 10 < n := Nat.div_lt_self (Nat.pos_of_ne_zero hne) (by norm_num)
        omega
      simp only [List.foldr_cons, ih _ hdiv]
      exact Nat.mod_add_div n 10

theorem digitChar_inj10 :
    ∀ a, a < 10 → ∀ b, b < 10 → Nat.digitChar a = Nat.digitChar b → a = b := by
  decide

theorem map_digitChar_inj :
    ∀ (l₁ l₂ : List Nat), (∀ d ∈ l₁, d < 10) → (∀ d ∈ l₂, d < 10) →
      l₁.map Nat.digitChar = l₂.map Nat.digitChar → l₁ = l₂ := by
  intro l₁
  induction l₁ with
  | nil => intro l₂ _ _ h; cases l₂ <;> simp_all
  | cons a l₁ ih =>
    intro l₂ h₁ h₂ h
    cases l₂ with
    | nil => simp at h
    | cons b l₂ =>
      simp only [List.map_cons, List.cons.injEq] at h
      have hab : a = b :=
        digitChar_inj10 a (h₁ a (by simp)) b (h₂ b (by simp)) h.1
      have := ih l₂ (fun d hd => h₁ d (by simp [hd])) (fun d hd => h₂ d (by simp [hd])) h.2
      simp [hab, this]

theorem natRepr_inj : ∀ (a b : Nat), natRepr a = natRepr b → a = b := by
  have key : ∀ n : Nat, n ≠ 0 → natRepr n ≠ "0" := by
    intro n hn h0
    simp only [natRepr, if_neg hn] at h0
    have hdata := congrArg String.data h0
    simp only at hdata
    have hmap : (natDigitsLE n n).map Nat.digitChar = ['0'] := by
      have := congrArg List.reverse hdata
      simpa using this
    cases hLE : natDigitsLE n n with
    | nil => rw [hLE] at hmap; simp at hmap
    | cons d t =>
      rw [hLE] at hmap
      cases t with
      | cons d' t' => simp at hmap
      | nil =>
        simp only [List.map_cons, List.map_nil, List.cons.injEq, and_true] at hmap
        have hd10 : d < 10 := natDigitsLE_lt10 n n d (by rw [hLE]; simp)
        have hd0 : d = 0 := digitChar_inj10 d hd10 0 (by norm_num) (by rw [hmap]; rfl)
        have hval := natDigitsLE_val n n le_rfl
        rw [hLE, hd0] at hval
        simp at hval
        exact hn hval.symm
  intro a b h
  by_cases ha : a = 0 <;> by_cases hb : b = 0
  · omega
  · exact absurd (by simpa [natRepr, ha] using h.symm) (key b hb)
  · exact absurd (by simpa [natRepr, hb] using h) (key a ha)
  · simp only [natRepr, if_neg ha, if_neg hb] at h
    have hdata := congrArg String.data h
    simp only at hdata
    have hmap := List.reverse_injective hdata
    have hLE := map_digitChar_inj _ _ (natDigitsLE_lt10 a a) (natDigitsLE_lt10 b b) hmap
    have := natDigitsLE_val a a le_rfl
    rw [hLE, natDigitsLE_val b b le_rfl] at this
    omega

theorem lookupKV_append_some {l : List (String × String)} {k v : String}
    (l' : List (String × String)) (h : lookupKV l k = some v) :
    lookupKV (l ++ l') k = some v := by
  induction l with
  | nil => simp [lookupKV] at h
  | cons p rest ih =>
    obtain ⟨k', v'⟩ := p
    simp only [lookupKV, List.cons_append] at h ⊢
    split at h <;> rename_i hk
    · simpa [lookupKV, hk] using h
    · simpa [lookupKV, hk] using ih h

theorem lookupKV_append_new {l : List (String × String)} {k : String}
    (v : String) (h : lookupKV l k = none) :
    lookupKV (l ++ [(k, v)]) k = some v := by
  induction l with
  | nil => simp [lookupKV]
  | cons p rest ih =>
    obtain ⟨k', v'⟩ := p
    simp only [lookupKV, List.cons_append] at h ⊢
    split at h <;> rename_i hk
    · simp at h
    · simpa [lookupKV, hk] using ih h

/-- After `assign_name`, the key is bound to the returned pseudonym. -/
theorem assign_name_lookup (rm : RenameMap) (k : String) :
    lookupKV (rm.assign_name k).2.map k = some (rm.assign_name k).1 := by
  unfold RenameMap.assign_name
  cases h : lookupKV rm.map k with
  | some v => simp [h]
  | none => simpa using lookupKV_append_new _ h

/-- `assign_name` never disturbs an existing binding (the dict is only
ever extended with keys that are not yet present). -/
theorem assign_name_preserves {rm : RenameMap} {k v : String} (k' : String)
    (h : lookupKV rm.map k = some v) :
    lookupKV (rm.assign_name k').2.map k = some v := by
  unfold RenameMap.assign_name
  cases h' : lookupKV rm.map k' with
  | some w => simpa [h'] using h
  | none => simpa [h'] using lookupKV_append_some _ h

/-- `assign_many` never disturbs an existing binding. -/
theorem assign_many_preserves {rm : RenameMap} {k v : String}
    (ks : List String) (h : lookupKV rm.map k = some v) :
    lookupKV (rm.assign_many ks).2.map k = some v := by
  induction ks generalizing rm with
  | nil => simpa [RenameMap.assign_many]
  | cons k' ks ih =>
    simp only [RenameMap.assign_many]
    exact ih (assign_name_preserves k' h)

/-- A memoized key is returned as-is, with the map unchanged. -/
theorem assign_name_of_lookup {rm : RenameMap} {k v : String}
    (h : lookupKV rm.map k = some v) : rm.assign_name k = (v, rm) := by
  unfold RenameMap.assign_name
  rw [h]

theorem assign_many_cons (rm : RenameMap) (k : String) (ks : List String) :
    rm.assign_many (k :: ks) =
      ((rm.assign_name k).1 :: ((rm.assign_name k).2.assign_many ks).1,
        ((rm.assign_name k).2.assign_many ks).2) := rfl

/-- `rename_python_module` succeeds on every input: `split` never
produces an empty component list. -/
theorem rename_python_module_total (p : String) (rm : RenameMap) :
    (rename_python_module p rm).isSome := by
  unfold rename_python_module
  cases h : (splitSlashS (removesuffixPy p)).getLast? with
  | none =>
    exact absurd (List.getLast?_eq_none_iff.mp h) (splitSlashS_ne_nil _)
  | some lastp => simp only [h]; split <;> simp

/-- C8: module path renaming fails if and only if the suffix-stripped
path splits into zero components; since Python's `split` always returns
at least one component, the failure branch is unreachable and renaming
succeeds on every path. -/
theorem c8_rename_fails_iff_no_components (p : String) (rm : RenameMap) :
    (rename_python_module p rm = none ↔ splitSlashS (removesuffixPy p) = []) ∧
    splitSlashS (removesuffixPy p) ≠ [] := by
  have hne := splitSlashS_ne_nil (removesuffixPy p)
  have ht := rename_python_module_total p rm
  refine ⟨⟨fun h => ?_, fun h => absurd h hne⟩, hne⟩
  rw [h] at ht
  simp at ht

/-- C6: when the suffix-stripped path decomposes as directory components
plus a reserved `__init__`/`__main__` leaf, only the directories go
through `assign_many` and the leaf is reattached verbatim; for any other
leaf every component (the leaf included) goes through `assign_many`. -/
theorem c6_reserved_leaf_preserved (p : String) (rm : RenameMap)
    (dirs : List String) (leaf : String)
    (hsplit : splitSlashS (removesuffixPy p) = dirs ++ [leaf]) :
    (leaf = "__init__" ∨ leaf = "__main__" →
      rename_python_module p rm =
        some (joinSlash ((rm.assign_many dirs).1 ++ [leaf]) ++ ".py",
          (rm.assign_many dirs).2)) ∧
    (¬(leaf = "__init__" ∨ leaf = "__main__") →
      rename_python_module p rm =
        some (joinSlash (rm.assign_many (dirs ++ [leaf])).1 ++ ".py",
          (rm.assign_many (dirs ++ [leaf])).2)) := by
  constructor
  · intro hres
    simp only [rename_python_module, hsplit, List.getLast?_concat,
      List.dropLast_concat, if_pos hres]
  · intro hres
    simp only [rename_python_module, hsplit, List.getLast?_concat, if_neg hres]

theorem assign_many_length (ks : List String) :
    ∀ rm : RenameMap, (rm.assign_many ks).1.length = ks.length := by
  induction ks with
  | nil => intro rm; simp [RenameMap.assign_many]
  | cons k ks ih => intro rm; simp [RenameMap.assign_many, ih]

theorem joinSlash_cons (x : String) {l : List String} (h : l ≠ []) :
    joinSlash (x :: l) = x ++ "/" ++ joinSlash l := by
  cases l with
  | nil => exact absurd rfl h
  | cons y t => rfl

/-- Common shape of `rename_python_module` on a path with at least two
components: the output starts with the pseudonym assigned to the first
component, and that binding is present in the final map state. -/
theorem rename_shape (rm : RenameMap) (p c : String) (ds : List String)
    (f : String) (hsplit : splitSlashS (removesuffixPy p) = (c :: ds) ++ [f]) :
    ∃ s rm', rename_python_module p rm =
        some ((rm.assign_name c).1 ++ "/" ++ s, rm') ∧
      lookupKV rm'.map c = some (rm.assign_name c).1 := by
  by_cases hres : f = "__init__" ∨ f = "__main__"
  · refine ⟨joinSlash (((rm.assign_name c).2.assign_many ds).1 ++ [f]) ++ ".py",
      ((rm.assign_name c).2.assign_many ds).2, ?_, ?_⟩
    · simp only [rename_python_module, hsplit, List.getLast?_concat,
        List.dropLast_concat, if_pos hres, assign_many_cons]
      rw [List.cons_append,
        joinSlash_cons _ (by simp : ((rm.assign_name c).2.assign_many ds).1 ++ [f] ≠ []),
        String.append_assoc, String.append_assoc]
    · exact assign_many_preserves ds (assign_name_lookup rm c)
  · refine ⟨joinSlash (((rm.assign_name c).2.assign_many (ds ++ [f])).1) ++ ".py",
      ((rm.assign_name c).2.assign_many (ds ++ [f])).2, ?_, ?_⟩
    · simp only [rename_python_module, hsplit, List.getLast?_concat, if_neg hres]
      simp only [List.cons_append, assign_many_cons]
      rw [joinSlash_cons _ (List.ne_nil_of_length_pos (by
          rw [assign_many_length]; simp)),
        String.append_assoc, String.append_assoc]
    · exact assign_many_preserves _ (assign_name_lookup rm c)

/-- C1: two module paths sharing their leading directory component,
renamed through the same `RenameMap` (threaded from the first call into
the second), produce outputs sharing one identical renamed leading
component: renaming is keyed by the component string, not the full
path. -/
theorem c1_shared_leading_component (rm : RenameMap) (p₁ p₂ c : String)
    (ds₁ ds₂ : List String) (f₁ f₂ : String)
    (h₁ : splitSlashS (removesuffixPy p₁) = (c :: ds₁) ++ [f₁])
    (h₂ : splitSlashS (removesuffixPy p₂) = (c :: ds₂) ++ [f₂]) :
    ∃ v s₁ s₂ out₁ rm₁ out₂ rm₂,
      rename_python_module p₁ rm = some (out₁, rm₁) ∧
      rename_python_module p₂ rm₁ = some (out₂, rm₂) ∧
      out₁ = v ++ "/" ++ s₁ ∧ out₂ = v ++ "/" ++ s₂ := by
  obtain ⟨s₁, rm₁, hr₁, hl₁⟩ := rename_shape rm p₁ c ds₁ f₁ h₁
  obtain ⟨s₂, rm₂, hr₂, hl₂⟩ := rename_shape rm₁ p₂ c ds₂ f₂ h₂
  have hv : (rm₁.assign_name c).1 = (rm.assign_name c).1 := by
    rw [assign_name_of_lookup hl₁]
  rw [hv] at hr₂
  exact ⟨(rm.assign_name c).1, s₁, s₂, _, rm₁, _, rm₂, hr₁, hr₂, rfl, rfl⟩

/-- Witness for C1 at the concrete pair `"a/b.py"`, `"a/c.py"`, both
sharing the leading directory component `"a"`. -/
theorem c1_shared_leading_component_witness :
    ∃ v s₁ s₂ out₁ rm₁ out₂ rm₂,
      rename_python_module "a/b.py" ⟨natRepr, 0, []⟩ = some (out₁, rm₁) ∧
      rename_python_module "a/c.py" rm₁ = some (out₂, rm₂) ∧
      out₁ = v ++ "/" ++ s₁ ∧ out₂ = v ++ "/" ++ s₂ :=
  c1_shared_leading_component ⟨natRepr, 0, []⟩ "a/b.py" "a/c.py" "a" [] [] "b" "c"
    (by decide) (by decide)

/-- Witness for C6 at the concrete path `"pkg/sub/__init__.py"`: the
reserved leaf is kept verbatim and only the directories are renamed. -/
theorem c6_reserved_leaf_preserved_witness :
    splitSlashS (removesuffixPy "pkg/sub/__init__.py") = ["pkg", "sub"] ++ ["__init__"] ∧
    rename_python_module "pkg/sub/__init__.py" ⟨natRepr, 0, []⟩ =
      some (joinSlash (((⟨natRepr, 0, []⟩ : RenameMap).assign_many ["pkg", "sub"]).1 ++
          ["__init__"]) ++ ".py",
        ((⟨natRepr, 0, []⟩ : RenameMap).assign_many ["pkg", "sub"]).2) :=
  ⟨by decide,
    (c6_reserved_leaf_preserved "pkg/sub/__init__.py" ⟨natRepr, 0, []⟩
      ["pkg", "sub"] "__init__" (by decide)).1 (Or.inl rfl)⟩

/-- `renameDeps` always succeeds, since each single rename does. -/
theorem renameDeps_total : ∀ (ds : List String) (rm : RenameMap),
    ∃ rs rm', renameDeps ds rm = some (rs, rm') := by
  intro ds
  induction ds with
  | nil => exact fun rm => ⟨[], rm, rfl⟩
  | cons d ds ih =>
    intro rm
    obtain ⟨⟨r, rm₁⟩, hr⟩ :=
      Option.isSome_iff_exists.mp (rename_python_module_total d rm)
    obtain ⟨rs, rm₂, hrs⟩ := ih rm₁
    exact ⟨r :: rs, rm₂, by simp [renameDeps, hr, hrs]⟩

/-- `render_imports_go` always succeeds: the `ValueError` branch needs an
edge splitting into zero components, which `split` cannot produce. -/
theorem render_imports_go_total : ∀ (deps : List String) (cnt : List (String × Nat)),
    ∃ lines, render_imports_go deps cnt = some lines := by
  intro deps
  induction deps with
  | nil => exact fun cnt => ⟨[], rfl⟩
  | cons dep deps ih =>
    intro cnt
    cases hs : splitSlashS (removesuffixPy dep) with
    | nil => exact absurd hs (splitSlashS_ne_nil _)
    | cons a l =>
      simp only [render_imports_go, hs]
      split
      · exact ih cnt
      · obtain ⟨lines, hl⟩ := ih (counterInc cnt ((a :: l).getLastD ""))
        rw [hl]
        exact ⟨_, rfl⟩

/-- Unfolding of `handle_python_module`: all three stages succeed and the
output record is assembled from their results. -/
theorem handle_python_module_eq (info : TargetInfo) (tt : String) (rm : RenameMap) :
    ∃ new_path rm₁ renamed_deps rm₂ lines,
      rename_python_module info.address.path rm = some (new_path, rm₁) ∧
      renameDeps (inferredDeps info) rm₁ = some (renamed_deps, rm₂) ∧
      render_imports renamed_deps = some lines ∧
      handle_python_module info tt rm =
        some ({ address := { info.address with path := new_path },
                target_type := info.target_type,
                dependencies := renamed_deps,
                dependencies_raw := [],
                other := info.other,
                content := joinNL (lines ++ [""]) }, rm₂) := by
  obtain ⟨⟨np, rm₁⟩, hnp⟩ :=
    Option.isSome_iff_exists.mp (rename_python_module_total info.address.path rm)
  obtain ⟨rs, rm₂, hrs⟩ := renameDeps_total (inferredDeps info) rm₁
  obtain ⟨lines, hl⟩ := render_imports_go_total rs []
  exact ⟨np, rm₁, rs, rm₂, lines, hnp, hrs, hl,
    by simp [handle_python_module, hnp, hrs, render_imports, hl]⟩

theorem mem_pyDedup (x : String) : ∀ l : List String, x ∈ pyDedup l ↔ x ∈ l := by
  intro l
  induction l with
  | nil => simp [pyDedup]
  | cons a l ih =>
    simp only [pyDedup, List.mem_cons, List.mem_filter, ih,
      Bool.not_eq_true', beq_eq_false_iff_ne, ne_eq]
    by_cases hx : x = a <;> simp [hx]

theorem mem_inferredDeps (info : TargetInfo) (d : String) :
    d ∈ inferredDeps info ↔
      d ∈ info.dependencies ∧ ¬ d ∈ info.dependencies_raw := by
  simp [inferredDeps, List.mem_filter, mem_pyDedup]

/-- C2: the dependency edges kept for synthesis are exactly
`dependencies − dependencies_raw` (as sets of edge strings); the output
record's dependency list is precisely the threaded renaming of that
difference, its raw-dependency list is cleared, and the synthesized
content is exactly the import lines rendered from those renamed kept
edges. -/
theorem c2_kept_edges_are_set_difference (info : TargetInfo) (rm : RenameMap) :
    (∀ d, d ∈ inferredDeps info ↔
      d ∈ info.dependencies ∧ ¬ d ∈ info.dependencies_raw) ∧
    ∃ twc new_path rm₁ renamed_deps rm₂ lines,
      handle_python_module info info.target_type rm = some (twc, rm₂) ∧
      rename_python_module info.address.path rm = some (new_path, rm₁) ∧
      renameDeps (inferredDeps info) rm₁ = some (renamed_deps, rm₂) ∧
      render_imports renamed_deps = some lines ∧
      twc.dependencies = renamed_deps ∧
      twc.dependencies_raw = [] ∧
      twc.content = joinNL (lines ++ [""]) := by
  refine ⟨mem_inferredDeps info, ?_⟩
  obtain ⟨np, rm₁, rs, rm₂, lines, hnp, hrs, hl, hh⟩ :=
    handle_python_module_eq info info.target_type rm
  exact ⟨_, np, rm₁, rs, rm₂, lines, hh, hnp, hrs, hl, rfl, rfl, rfl⟩

/-- C10: the handler only rewrites the address's `path` field; `name`
and `subtarget` are carried into the output verbatim. -/
theorem c10_address_name_subtarget_preserved (info : TargetInfo) (rm : RenameMap) :
    ∃ twc rm' new_path rm₁,
      handle_python_module info info.target_type rm = some (twc, rm') ∧
      rename_python_module info.address.path rm = some (new_path, rm₁) ∧
      twc.address.path = new_path ∧
      twc.address.name = info.address.name ∧
      twc.address.subtarget = info.address.subtarget := by
  obtain ⟨np, rm₁, rs, rm₂, lines, hnp, hrs, hl, hh⟩ :=
    handle_python_module_eq info info.target_type rm
  exact ⟨_, rm₂, np, rm₁, hh, hnp, rfl, rfl, rfl⟩

/-- `runHandlers` always succeeds, yields one output per input record in
order, and each output's `target_type`/`other` come from the matching
input, which some intermediate map state handled. -/
theorem runHandlers_spec : ∀ (l : List TargetInfo) (rm : RenameMap),
    ∃ res rmEnd, runHandlers l rm = some (res, rmEnd) ∧
      res.length = l.length ∧
      ∀ i, i < l.length →
        (res.getD i dTWC).target_type = (l.getD i dTI).target_type ∧
        (res.getD i dTWC).other = (l.getD i dTI).other ∧
        ∃ rma rmb,
          handle_python_module (l.getD i dTI) (l.getD i dTI).target_type rma =
            some (res.getD i dTWC, rmb) := by
  intro l
  induction l with
  | nil =>
    intro rm
    exact ⟨[], rm, rfl, rfl, fun i hi => absurd hi (by simp)⟩
  | cons ti tis ih =>
    intro rm
    obtain ⟨np, rm₁, rs, rm₂, lines, hnp, hrs, hl, hh⟩ :=
      handle_python_module_eq ti ti.target_type rm
    obtain ⟨res, rmEnd, hrun, hlen, hidx⟩ := ih rm₂
    refine ⟨⟨⟨⟨np, ti.address.name, ti.address.subtarget⟩, ti.target_type, rs, [],
        ti.other⟩, joinNL (lines ++ [""])⟩ :: res, rmEnd,
      by simp [runHandlers, hh, hrun], by simp [hlen], ?_⟩
    intro i hi
    cases i with
    | zero => exact ⟨rfl, rfl, rm, rm₂, hh⟩
    | succ j =>
      simp only [List.getD_cons_succ]
      exact hidx j (by simpa using hi)

/-- C7: the pipeline succeeds on every record sequence, produces exactly
one output per record of a recognized module kind, in input order, all
threaded through the single `RenameMap` constructed fresh for the run;
records of any other type are dropped silently (removing them up front
changes nothing). -/
theorem c7_pipeline_one_output_per_eligible_record (gen : Nat → String)
    (data : List TargetInfo) :
    ∃ res rmEnd,
      rename_python_targets gen data = some res ∧
      rename_python_targets gen
        (data.filter (fun ti => relevantType ti.target_type)) = some res ∧
      runHandlers (data.filter (fun ti => relevantType ti.target_type))
        ⟨gen, 0, []⟩ = some (res, rmEnd) ∧
      res.length = (data.filter (fun ti => relevantType ti.target_type)).length ∧
      ∀ i, i < res.length →
        (res.getD i dTWC).target_type =
          ((data.filter (fun ti => relevantType ti.target_type)).getD i dTI).target_type ∧
        (res.getD i dTWC).other =
          ((data.filter (fun ti => relevantType ti.target_type)).getD i dTI).other ∧
        ∃ rma rmb,
          handle_python_module
            ((data.filter (fun ti => relevantType ti.target_type)).getD i dTI)
            ((data.filter (fun ti => relevantType ti.target_type)).getD i dTI).target_type
            rma =
          some (res.getD i dTWC, rmb) := by
  obtain ⟨res, rmEnd, hrun, hlen, hidx⟩ :=
    runHandlers_spec (data.filter (fun ti => relevantType ti.target_type)) ⟨gen, 0, []⟩
  refine ⟨res, rmEnd, ?_, ?_, hrun, hlen, fun i hi => hidx i (hlen ▸ hi)⟩
  · simp [rename_python_targets, hrun]
  · simp [rename_python_targets, List.filter_filter, hrun]

/-- C3 (code bug): an empty dependency edge string splits into one empty
component, not zero, so the `raise ValueError("zero-length dependency
address")` guard in `render_imports` is unreachable; the code silently
emits the invalid line `import  as 1` for it, and import synthesis in
fact succeeds on every edge list. -/
theorem c3_empty_edge_emits_invalid_line :
    render_imports [""] = some ["import  as 1"] ∧
    splitSlashS (removesuffixPy "") = [""] ∧
    ∀ deps : List String, ∃ lines, render_imports deps = some lines :=
  ⟨by decide, by decide, fun deps => render_imports_go_total deps []⟩

theorem counterVal_counterInc : ∀ (cnt : List (String × Nat)) (k k' : String),
    counterVal (counterInc cnt k) k' =
      counterVal cnt k' + (if k = k' then 1 else 0) := by
  intro cnt
  induction cnt with
  | nil => intro k k'; simp [counterInc, counterVal]
  | cons p rest ih =>
    intro k k'
    obtain ⟨k'', n⟩ := p
    by_cases h1 : k'' = k
    · subst h1
      by_cases h2 : k'' = k'
      · subst h2; simp [counterInc, counterVal]
      · simp [counterInc, counterVal, h2]
    · by_cases h2 : k'' = k'
      · subst h2
        have hk : ¬ k = k'' := fun hh => h1 hh.symm
        simp [counterInc, counterVal, h1, hk]
      · simp [counterInc, counterVal, h1, h2, ih]

theorem counterVal_counterInc_self (cnt : List (String × Nat)) (k : String) :
    counterVal (counterInc cnt k) k = counterVal cnt k + 1 := by
  rw [counterVal_counterInc]; simp

/-- `a ++ b = a ++ c → b = c` for strings. -/
theorem string_append_left_cancel {a b c : String} (h : a ++ b = a ++ c) :
    b = c := by
  have hd := congrArg String.data h
  rw [String.data_append a b, String.data_append a c] at hd
  exact congrArg String.mk (List.append_cancel_left hd)

/-- The element at an in-bounds index occurs in the prefix that
includes it. -/
theorem getD_mem_take {l : List String} {i : Nat} (hi : i < l.length) :
    l.getD i "" ∈ l.take (i + 1) := by
  have h1 : l.getD i "" = l[i] := by
    rw [List.getD_eq_getElem?_getD, List.getElem?_eq_getElem hi]; rfl
  have h2 : l.take (i + 1) = l.take i ++ [l[i]] := by
    rw [List.take_succ, List.getElem?_eq_getElem hi]; rfl
  rw [h1, h2]
  exact List.mem_append_right _ (by simp)

/-- Invariant of the `render_imports` loop: one line per kept edge, and
the `i`-th line ends in the alias built from the `i`-th kept leaf name
plus the decimal value of its running occurrence count (offset by the
incoming counter state). -/
theorem render_imports_go_spec :
    ∀ (deps : List String) (cnt : List (String × Nat)) (lines : List String),
      render_imports_go deps cnt = some lines →
      lines.length = (keptLeaves deps).length ∧
      ∀ i, i < lines.length → ∃ pre,
        lines.getD i "" = pre ++ " as " ++
          ((keptLeaves deps).getD i "" ++
            natRepr (counterVal cnt ((keptLeaves deps).getD i "") +
              List.count ((keptLeaves deps).getD i "")
                (List.take (i + 1) (keptLeaves deps)))) := by
  intro deps
  induction deps with
  | nil =>
    intro cnt lines h
    simp only [render_imports_go, Option.some.injEq] at h
    subst h
    exact ⟨by simp [keptLeaves], fun i hi => absurd hi (by simp)⟩
  | cons dep deps ih =>
    intro cnt lines h
    cases hs : splitSlashS (removesuffixPy dep) with
    | nil => exact absurd hs (splitSlashS_ne_nil _)
    | cons a l =>
      have hdl : depLeaf dep = (a :: l).getLastD "" := by simp [depLeaf, hs]
      simp only [render_imports_go, hs] at h
      set leaf := (a :: l).getLastD "" with hgen
      by_cases hres : leaf = "__init__"
      · rw [if_pos hres] at h
        have hkept : keptLeaves (dep :: deps) = keptLeaves deps := by
          simp [keptLeaves, List.filter_cons, hdl, hres]
        rw [hkept]
        exact ih cnt lines h
      · rw [if_neg hres] at h
        have hkept : keptLeaves (dep :: deps) = leaf :: keptLeaves deps := by
          simp [keptLeaves, List.filter_cons, hdl, hres]
        cases hrec : render_imports_go deps (counterInc cnt leaf) with
        | none => rw [hrec] at h; simp at h
        | some tl =>
          rw [hrec] at h
          simp only [Option.map_some', Option.some.injEq] at h
          obtain ⟨hlen, hidx⟩ := ih _ tl hrec
          subst h
          rw [hkept]
          have hcv := counterVal_counterInc_self cnt leaf
          refine ⟨by simpa using hlen, ?_⟩
          intro i hi
          cases i with
          | zero =>
            have hcount :
                List.count leaf (List.take (0 + 1) (leaf :: keptLeaves deps)) = 1 := by
              simp
            by_cases hfrom : joinDot (a :: l).dropLast = ""
            · refine ⟨"import " ++ leaf, ?_⟩
              simp only [List.getD_cons_zero]
              rw [if_neg (fun hc => hc hfrom), hcount, hcv]
            · refine ⟨"from " ++ joinDot (a :: l).dropLast ++ " import " ++ leaf, ?_⟩
              simp only [List.getD_cons_zero]
              rw [if_pos hfrom, hcount, hcv]
          | succ j =>
            have hj : j < tl.length := by simpa using hi
            obtain ⟨pre, hp⟩ := hidx j hj
            refine ⟨pre, ?_⟩
            simp only [List.getD_cons_succ]
            rw [hp]
            have key : counterVal (counterInc cnt leaf) ((keptLeaves deps).getD j "") +
                List.count ((keptLeaves deps).getD j "")
                  (List.take (j + 1) (keptLeaves deps)) =
                counterVal cnt ((keptLeaves deps).getD j "") +
                List.count ((keptLeaves deps).getD j "")
                  (List.take (j + 1 + 1) (leaf :: keptLeaves deps)) := by
              rw [List.take_succ_cons]
              by_cases hL : leaf = (keptLeaves deps).getD j ""
              · rw [← hL, counterVal_counterInc_self, List.count_cons_self]
                omega
              · rw [counterVal_counterInc, if_neg hL,
                  List.count_cons_of_ne (fun hh => hL hh.symm)]
                omega
            rw [key]

/-- C5: with the fresh per-target counter, every emitted import line's
alias is the edge's leaf name followed by the decimal running count of
that leaf (a positive integer); a first occurrence gets count `1`, and
two lines for the same leaf name get distinct aliases. -/
theorem c5_alias_counter_scheme (deps lines : List String)
    (h : render_imports deps = some lines) :
    lines.length = (keptLeaves deps).length ∧
    (∀ i, i < lines.length → ∃ pre,
      lines.getD i "" = pre ++ " as " ++
        ((keptLeaves deps).getD i "" ++
          natRepr (List.count ((keptLeaves deps).getD i "")
            (List.take (i + 1) (keptLeaves deps)))) ∧
      1 ≤ List.count ((keptLeaves deps).getD i "")
        (List.take (i + 1) (keptLeaves deps))) ∧
    (∀ i, i < lines.length →
      ¬ (keptLeaves deps).getD i "" ∈ (keptLeaves deps).take i →
      List.count ((keptLeaves deps).getD i "")
        (List.take (i + 1) (keptLeaves deps)) = 1) ∧
    (∀ i j, i < j → j < lines.length →
      (keptLeaves deps).getD i "" = (keptLeaves deps).getD j "" →
      (keptLeaves deps).getD i "" ++
          natRepr (List.count ((keptLeaves deps).getD i "")
            (List.take (i + 1) (keptLeaves deps))) ≠
        (keptLeaves deps).getD j "" ++
          natRepr (List.count ((keptLeaves deps).getD j "")
            (List.take (j + 1) (keptLeaves deps)))) := by
  obtain ⟨hlen, hidx⟩ := render_imports_go_spec deps [] lines h
  have htake : ∀ m, m < (keptLeaves deps).length →
      (keptLeaves deps).take (m + 1) =
        (keptLeaves deps).take m ++ [(keptLeaves deps).getD m ""] := by
    intro m hm
    rw [List.take_succ, List.getElem?_eq_getElem hm,
      List.getD_eq_getElem?_getD, List.getElem?_eq_getElem hm]
    rfl
  refine ⟨hlen, ?_, ?_, ?_⟩
  · intro i hi
    obtain ⟨pre, hp⟩ := hidx i hi
    simp only [counterVal, Nat.zero_add] at hp
    refine ⟨pre, hp, ?_⟩
    exact List.count_pos_iff.mpr (getD_mem_take (hlen ▸ hi))
  · intro i hi hnot
    have hlt : i < (keptLeaves deps).length := hlen ▸ hi
    rw [htake i hlt, List.count_append, List.count_eq_zero.mpr hnot]
    simp
  · intro i j hij hj heq hcontra
    have hj' : j < (keptLeaves deps).length := hlen ▸ hj
    rw [heq] at hcontra
    have hcij := natRepr_inj _ _ (string_append_left_cancel hcontra)
    have hstep : List.count ((keptLeaves deps).getD j "")
        ((keptLeaves deps).take (j + 1)) =
        List.count ((keptLeaves deps).getD j "") ((keptLeaves deps).take j) + 1 := by
      rw [htake j hj', List.count_append]
      simp
    have hmono : List.count ((keptLeaves deps).getD j "")
        ((keptLeaves deps).take (i + 1)) ≤
        List.count ((keptLeaves deps).getD j "") ((keptLeaves deps).take j) := by
      have hsub : (keptLeaves deps).take (i + 1) =
          ((keptLeaves deps).take j).take (i + 1) := by
        rw [List.take_take]
        congr 1
        omega
      rw [hsub]
      exact (List.take_sublist _ _).count_le _
    omega

/-- Witness for C5 at the concrete edge list `["a/x.py", "x.py"]`: both
leaves are `x`; the first line is aliased `x1`, the second `x2`. -/
theorem c5_alias_counter_scheme_witness :
    render_imports ["a/x.py", "x.py"] =
      some ["from a import x as x1", "import x as x2"] ∧
    ["from a import x as x1", "import x as x2"].length =
      (keptLeaves ["a/x.py", "x.py"]).length :=
  ⟨by decide,
    (c5_alias_counter_scheme ["a/x.py", "x.py"]
      ["from a import x as x1", "import x as x2"] (by decide)).1⟩

theorem mk_data (s : String) : String.mk s.data = s := rfl

theorem mk_ne_empty {l : List Char} (h : l ≠ []) : String.mk l ≠ "" := by
  intro h0
  exact h (congrArg String.data h0)

theorem string_ne_empty_data {s : String} (h : s ≠ "") : s.data ≠ [] := by
  intro h0
  exact h (by rw [← mk_data s, h0])

/-- A plain run of non-special characters parses as a bare path with
empty name and subtarget groups. -/
theorem coreMatch_plain (cs : List Char) (hne : cs ≠ [])
    (hns : ∀ c ∈ cs, nonSpecial c = true) :
    coreMatch cs = some (cs, [], []) := by
  obtain ⟨ht, hd⟩ := takeWhile_all cs hns
  simp only [coreMatch, ht, hd, if_neg hne]
  simp [nameSub, subPart]

/-- A run of non-special characters followed by `':'`, a name token and
an optional `'#'`-prefixed subtarget parses into exactly those groups
(an empty name token together with a nonempty tail leaves both optional
groups unmatched, which the hypothesis `hNS` rules out). -/
theorem coreMatch_run (cs NT SP : List Char) (hcsne : cs ≠ [])
    (hcs : ∀ c ∈ cs, nonSpecial c = true)
    (hNT : ∀ c ∈ NT, nonSpecial c = true)
    (hSP : SP = [] ∨ ∃ T, SP = '#' :: T ∧ ∀ c ∈ T, nonSpecial c = true)
    (hNS : NT ≠ [] ∨ SP = []) :
    coreMatch (cs ++ ':' :: (NT ++ SP)) = some (cs, NT, SP.drop 1) := by
  have hcolon : ∀ c, (':' :: (NT ++ SP)).head? = some c → nonSpecial c = false := by
    intro c hc
    simp only [List.head?_cons, Option.some.injEq] at hc
    rw [← hc]
    rfl
  obtain ⟨ht, hd⟩ := takeWhile_run cs (':' :: (NT ++ SP)) hcs hcolon
  have hsphead : ∀ c, SP.head? = some c → nonSpecial c = false := by
    intro c hc
    rcases hSP with h | ⟨T, hT, _⟩
    · rw [h] at hc; simp at hc
    · rw [hT] at hc
      simp only [List.head?_cons, Option.some.injEq] at hc
      rw [← hc]
      rfl
  obtain ⟨ht2, hd2⟩ := takeWhile_run NT SP hNT hsphead
  cases NT with
  | nil =>
    have hSPe : SP = [] := by
      rcases hNS with h | h
      · exact absurd rfl h
      · exact h
    subst hSPe
    simp only [coreMatch, ht, hd, if_neg hcsne]
    simp [nameSub, subPart]
  | cons n nt =>
    have hcond : True ∧ List.takeWhile nonSpecial ((n :: nt) ++ SP) ≠ [] := by
      refine ⟨trivial, ?_⟩
      rw [ht2]
      simp
    have hnsub : nameSub (':' :: ((n :: nt) ++ SP)) = (n :: nt, SP) := by
      simp only [nameSub]
      rw [if_pos hcond, ht2, hd2]
    simp only [coreMatch, ht, hd, if_neg hcsne, hnsub]
    rcases hSP with h | ⟨T, hT, hTns⟩
    · subst h
      simp [subPart]
    · subst hT
      obtain ⟨ht3, _⟩ := takeWhile_all T hTns
      simp [subPart, ht3]

theorem addressMatch_no_root (cs : List Char)
    (h : ¬(cs.take 2 = ['/', '/'] ∧ (cs.drop 2).takeWhile nonSpecial ≠ [])) :
    addressMatch cs = coreMatch cs := by
  simp only [addressMatch, if_neg h]

theorem addressMatch_root (cs : List Char)
    (h : cs.take 2 = ['/', '/'] ∧ (cs.drop 2).takeWhile nonSpecial ≠ []) :
    addressMatch cs = coreMatch (cs.drop 2) := by
  simp only [addressMatch, if_pos h]

theorem data_mk (l : List Char) : (String.mk l).data = l := rfl

theorem mem_of_mem_takeWhile {p : Char → Bool} {l : List Char} {c : Char}
    (h : c ∈ l.takeWhile p) : c ∈ l :=
  (List.takeWhile_sublist p).subset h

theorem last_path_part_nonSpecial {s : String}
    (h : ∀ c ∈ s.data, nonSpecial c = true) :
    ∀ c ∈ (last_path_part s).data, nonSpecial c = true := by
  intro c hc
  simp only [last_path_part, data_mk, List.mem_reverse] at hc
  exact h c (List.mem_reverse.mp (mem_of_mem_takeWhile hc))

theorem last_path_part_ne_empty {s : String} (hne : s ≠ "")
    (hlast : s.data.getLast? ≠ some '/') : last_path_part s ≠ "" := by
  have hd : s.data ≠ [] := string_ne_empty_data hne
  cases hrev : s.data.reverse with
  | nil => exact absurd (List.reverse_eq_nil_iff.mp hrev) hd
  | cons c rest =>
    have hc : s.data.getLast? = some c := by
      rw [← List.head?_reverse, hrev]
      rfl
    have hcs : c ≠ '/' := fun hh => hlast (hh ▸ hc)
    have hns : notSlash c = true := by simp [notSlash, hcs]
    refine mk_ne_empty ?_
    rw [hrev]
    simp [List.takeWhile_cons, hns]

theorem takeWhile_notSlash_append_slashes :
    ∀ l : List Char, (l ++ ['/', '/']).takeWhile notSlash = l.takeWhile notSlash := by
  intro l
  induction l with
  | nil => rfl
  | cons c l ih => simp [List.takeWhile_cons, ih]

/-- Shared computation for the address round-trip facts: when parsing of
`s` reduces to the core match on `cs ++ ":" ++ lastPathPart cs` and
parsing of `p` reduces to the core match on `cs` alone, both yield the
same normalized `Address` (the redundant name is dropped). -/
theorem fromData_pair (s p : String) (cs L : List Char)
    (hcne : cs ≠ []) (hcs : ∀ c ∈ cs, nonSpecial c = true)
    (hLns : ∀ c ∈ L, nonSpecial c = true)
    (hLeq : String.mk L = last_path_part (String.mk cs))
    (hms : addressMatch s.data = coreMatch (cs ++ ':' :: L))
    (hmp : addressMatch p.data = coreMatch cs) :
    fromData s.data = fromData p.data := by
  have hrun := coreMatch_run cs L [] hcne hcs hLns (Or.inl rfl) (Or.inr rfl)
  have hrun' : coreMatch (cs ++ ':' :: L) = some (cs, L, []) := by
    simpa using hrun
  have hplain := coreMatch_plain cs hcne hcs
  rw [hrun'] at hms
  rw [hplain] at hmp
  simp only [fromData, hms, hmp]
  simp [mk_data, hLeq]

/-- C4: for every address value whose fields satisfy the canonical
grammar (nonempty relative path without special characters, clean
name/subtarget tokens), serializing, parsing and serializing again
returns the original canonical string: parse-then-serialize is a fixed
point on canonical address strings. -/
theorem c4_parse_serialize_fixed_point (a : Address) (h : a.canonicalOk) :
    (Address.from_str a.str).map Address.str = some a.str := by
  obtain ⟨hpne, hpns, hphead, hplast, hnns, hsns⟩ := h
  obtain ⟨NT, hNT⟩ : ∃ x, (if a.name = "" then last_path_part a.path else a.name) = x :=
    ⟨_, rfl⟩
  have hNTne : NT ≠ "" := by
    rw [← hNT]
    by_cases hn : a.name = ""
    · rw [if_pos hn]
      exact last_path_part_ne_empty hpne hplast
    · rw [if_neg hn]
      exact hn
  have hNTns : ∀ c ∈ NT.data, nonSpecial c = true := by
    rw [← hNT]
    by_cases hn : a.name = ""
    · rw [if_pos hn]
      exact last_path_part_nonSpecial hpns
    · rw [if_neg hn]
      exact hnns
  obtain ⟨SP, hSPeq, hSPshape, hSPback⟩ : ∃ SP : List Char,
      (if a.subtarget = "" then "" else "#" ++ a.subtarget).data = SP ∧
      (SP = [] ∨ ∃ T, SP = '#' :: T ∧ ∀ c ∈ T, nonSpecial c = true) ∧
      String.mk (SP.drop 1) = a.subtarget := by
    by_cases hse : a.subtarget = ""
    · refine ⟨[], by rw [if_pos hse], Or.inl rfl, ?_⟩
      rw [hse]
      rfl
    · refine ⟨'#' :: a.subtarget.data,
        ?_, Or.inr ⟨a.subtarget.data, rfl, hsns⟩, rfl⟩
      rw [if_neg hse, String.data_append]
      rfl
  have hstr : a.str = a.path ++ ":" ++ NT ++
      (if a.subtarget = "" then "" else "#" ++ a.subtarget) := by
    simp only [Address.str, if_neg hpne, hNT]
  have hdata : a.str.data = a.path.data ++ ':' :: (NT.data ++ SP) := by
    rw [hstr, String.data_append, String.data_append, String.data_append, hSPeq]
    simp [List.append_assoc]
  have hPd : a.path.data ≠ [] := string_ne_empty_data hpne
  have hnot2 : ¬((a.path.data ++ ':' :: (NT.data ++ SP)).take 2 = ['/', '/'] ∧
      ((a.path.data ++ ':' :: (NT.data ++ SP)).drop 2).takeWhile nonSpecial ≠ []) := by
    intro hcontra
    cases hPdc : a.path.data with
    | nil => exact hPd hPdc
    | cons p₀ P' =>
      have hp₀ : p₀ ≠ '/' := by
        rw [hPdc] at hphead
        intro hh
        subst hh
        exact hphead rfl
      have h1 := hcontra.1
      rw [hPdc] at h1
      have h2 : ((p₀ :: P') ++ ':' :: (NT.data ++ SP)).take 2 =
          p₀ :: (P' ++ ':' :: (NT.data ++ SP)).take 1 := rfl
      rw [h2] at h1
      exact hp₀ (by simpa using congrArg List.head? h1)
  have hmatch : addressMatch a.str.data = some (a.path.data, NT.data, SP.drop 1) := by
    rw [hdata, addressMatch_no_root _ hnot2]
    exact coreMatch_run a.path.data NT.data SP hPd hpns hNTns hSPshape
      (Or.inl (string_ne_empty_data hNTne))
  simp only [Address.from_str, fromData, hmatch, mk_data, hSPback, Option.map_some']
  congr 1
  by_cases hc : NT = "" ∨ NT = last_path_part a.path
  · have hNTlpp : NT = last_path_part a.path := by
      rcases hc with hh | hh
      · exact absurd hh hNTne
      · exact hh
    rw [if_pos hc]
    by_cases hn : a.name = ""
    · simp [Address.str, hpne, hn]
    · have hname : a.name = last_path_part a.path := by
        rw [← hNTlpp, ← hNT, if_neg hn]
      simp [Address.str, hpne, hn, hname]
  · rw [if_neg hc]
    by_cases hn : a.name = ""
    · exfalso
      apply hc
      right
      rw [← hNT, if_pos hn]
    · have hNTname : NT = a.name := by rw [← hNT, if_neg hn]
      simp [Address.str, hpne, hNTne, hNTname, hn]

/-- Witness for C4 at the concrete canonical address
`pkg/mod:tool#sub`. -/
theorem c4_parse_serialize_fixed_point_witness :
    Address.canonicalOk ⟨"pkg/mod", "tool", "sub"⟩ ∧
    (Address.from_str (Address.str ⟨"pkg/mod", "tool", "sub"⟩)).map Address.str =
      some (Address.str ⟨"pkg/mod", "tool", "sub"⟩) :=
  ⟨by unfold Address.canonicalOk; decide,
    c4_parse_serialize_fixed_point ⟨"pkg/mod", "tool", "sub"⟩
      (by unfold Address.canonicalOk; decide)⟩

/-- C9: for any path-shaped string (no `:`/`#` characters), appending an
explicit name token equal to the path's last slash-delimited component
parses to the same `Address` value as the bare string: the redundant
name is normalized away (`"a/b:b"` parses like `"a/b"`). -/
theorem c9_redundant_name_normalized (p : String)
    (h : ∀ c ∈ p.data, nonSpecial c = true) :
    Address.from_str (p ++ ":" ++ last_path_part p) = Address.from_str p := by
  cases hPd : p.data with
  | nil =>
    have hp : p = "" := by rw [← mk_data p, hPd]
    subst hp
    decide
  | cons c₀ P' =>
    have hpne : p.data ≠ [] := by rw [hPd]; simp
    have hsdata : (p ++ ":" ++ last_path_part p).data =
        p.data ++ ':' :: (last_path_part p).data := by
      rw [String.data_append, String.data_append]
      simp
    have hlppns := last_path_part_nonSpecial (s := p) h
    have hcolon : ∀ c : Char,
        ((':' :: (last_path_part p).data).head? = some c → nonSpecial c = false) := by
      intro c hc
      simp only [List.head?_cons, Option.some.injEq] at hc
      rw [← hc]
      rfl
    simp only [Address.from_str]
    by_cases h2 : p.data.take 2 = ['/', '/'] ∧
        (p.data.drop 2).takeWhile nonSpecial ≠ []
    · have hpd2 : p.data = '/' :: '/' :: p.data.drop 2 := by
        conv_lhs => rw [← List.take_append_drop 2 p.data]
        rw [h2.1]
        rfl
      have hRns : ∀ c ∈ p.data.drop 2, nonSpecial c = true := by
        intro c hc
        exact h c (by rw [hpd2]; exact List.mem_cons_of_mem _ (List.mem_cons_of_mem _ hc))
      have hRne : p.data.drop 2 ≠ [] := by
        intro h0
        exact h2.2 (by rw [h0]; rfl)
      have hcore : List.takeWhile notSlash p.data.reverse =
          List.takeWhile notSlash (p.data.drop 2).reverse := by
        conv_lhs => rw [hpd2]
        simp only [List.reverse_cons, List.append_assoc, List.singleton_append]
        exact takeWhile_notSlash_append_slashes (p.data.drop 2).reverse
      have hlpp2 : last_path_part p = last_path_part (String.mk (p.data.drop 2)) := by
        simp only [last_path_part, data_mk, hcore]
      have hms : addressMatch (p ++ ":" ++ last_path_part p).data =
          coreMatch (p.data.drop 2 ++ ':' ::
            (last_path_part (String.mk (p.data.drop 2))).data) := by
        rw [hsdata, ← hlpp2]
        conv_lhs => rw [hpd2]
        have hshape : ('/' :: '/' :: p.data.drop 2) ++ ':' :: (last_path_part p).data =
            '/' :: '/' :: (p.data.drop 2 ++ ':' :: (last_path_part p).data) := rfl
        rw [hshape]
        refine addressMatch_root _ ⟨rfl, ?_⟩
        have hdrop : ('/' :: '/' ::
            (p.data.drop 2 ++ ':' :: (last_path_part p).data)).drop 2 =
            p.data.drop 2 ++ ':' :: (last_path_part p).data := rfl
        rw [hdrop]
        obtain ⟨ht, _⟩ := takeWhile_run (p.data.drop 2)
          (':' :: (last_path_part p).data) hRns hcolon
        rw [ht]
        exact hRne
      have hmp : addressMatch p.data = coreMatch (p.data.drop 2) := by
        have := addressMatch_root p.data h2
        rw [this]
      exact fromData_pair _ _ (p.data.drop 2)
        (last_path_part (String.mk (p.data.drop 2))).data hRne hRns
        (last_path_part_nonSpecial (by rw [data_mk]; exact hRns))
        (mk_data _) hms hmp
    · have hmp : addressMatch p.data = coreMatch p.data := addressMatch_no_root _ h2
      have hms : addressMatch (p ++ ":" ++ last_path_part p).data =
          coreMatch (p.data ++ ':' :: (last_path_part p).data) := by
        rw [hsdata]
        apply addressMatch_no_root
        intro hcontra
        rw [hPd] at hcontra
        cases P' with
        | nil =>
          have h1 := hcontra.1
          have hq : ((c₀ :: []) ++ ':' :: (last_path_part p).data).take 2 =
              [c₀, ':'] := rfl
          rw [hq] at h1
          have := congrArg (fun l => l.getD 1 ' ') h1
          simp at this
        | cons c₁ P'' =>
          apply h2
          rw [hPd]
          have hq : ((c₀ :: c₁ :: P'') ++ ':' :: (last_path_part p).data).take 2 =
              [c₀, c₁] := rfl
          rw [hq] at hcontra
          constructor
          · have hq2 : (c₀ :: c₁ :: P'').take 2 = [c₀, c₁] := rfl
            rw [hq2]
            exact hcontra.1
          · have hP''ns : ∀ c ∈ P'', nonSpecial c = true := by
              intro c hc
              exact h c (by rw [hPd]; simp [hc])
            obtain ⟨hts, _⟩ := takeWhile_run P'' (':' :: (last_path_part p).data)
              hP''ns hcolon
            have h2' := hcontra.2
            have hq3 : ((c₀ :: c₁ :: P'') ++ ':' :: (last_path_part p).data).drop 2 =
                P'' ++ ':' :: (last_path_part p).data := rfl
            rw [hq3, hts] at h2'
            have hq4 : (c₀ :: c₁ :: P'').drop 2 = P'' := rfl
            rw [hq4, (takeWhile_all P'' hP''ns).1]
            exact h2'
      exact fromData_pair _ _ p.data (last_path_part p).data hpne h hlppns
        rfl hms hmp

/-- Witness for C9 at the concrete pair `"a/b:b"` / `"a/b"`. -/
theorem c9_redundant_name_normalized_witness :
    Address.from_str ("a/b" ++ ":" ++ last_path_part "a/b") =
      Address.from_str "a/b" :=
  c9_redundant_name_normalized "a/b" (by decide)

/-!
Sanity checks of the embedding on concrete inputs (Python behaviour
traced by hand from the source).
-/

example : splitSlashS "a/b" = ["a", "b"] := by decide

example : splitSlashS "" = [""] := by decide

example : removesuffixPy "pkg/a.py" = "pkg/a" := by decide

example : last_path_part "a/b" = "b" := by decide

example : natRepr 1 = "1" := by decide

example : natRepr 12 = "12" := by decide

example :
    ∃ rm', rename_python_module "pkg/sub/__init__.py" ⟨natRepr, 0, []⟩ =
      some ("0/1/__init__.py", rm') := ⟨_, rfl⟩

example : Address.from_str "a/b:b" = some ⟨"a/b", "", ""⟩ := by decide

example : Address.from_str "a/b" = some ⟨"a/b", "", ""⟩ := by decide

example : Address.from_str "a/b:c#d" = some ⟨"a/b", "c", "d"⟩ := by decide

example : Address.from_str "//a/b:c" = some ⟨"a/b", "c", ""⟩ := by decide

example : Address.from_str ":x" = none := by decide

example : Address.str ⟨"a/b", "", ""⟩ = "a/b:b" := by decide

example : render_imports ["a/x.py", "x.py"] =
    some ["from a import x as x1", "import x as x2"] := by decide

example : render_imports [""] = some ["import  as 1"] := by decide

example : render_imports ["p/__init__.py"] = some [] := by decide

example :
    ∃ twc rm',
      handle_python_module
        ⟨⟨"pkg/a", "", ""⟩, "python_source", ["pkg/helpers.py", "x.py"], ["x.py"], []⟩
        "python_source" ⟨natRepr, 0, []⟩ = some (twc, rm') ∧
      twc.content = "from 0 import 2 as 21\n" ∧
      twc.dependencies = ["0/2.py"] ∧ twc.address = ⟨"0/1.py", "", ""⟩ := by
  exact ⟨_, _, rfl, by decide, by decide, by decide⟩
